import Mathlib

/-!
# Verification of the Dash-Data-Acquisition socket layer

A shallow embedding of the framing protocol, ring-buffer forwarder,
connection admission, command dispatcher, and consumer-side socket
manager of the Dash-Data-Acquisition repository (`server.py`,
`daqSocketManager.py`), together with theorems settling the spec's
claims about them.

Conventions of the embedding:

* Python `bytes` values are `List Nat` with entries `< 256`; Python `str`
  values are `List Nat` of Unicode code points.
* A TCP connection delivers data in chunks: `socket.recv(n)` returns at
  most `n` bytes from the front of the pending chunk, a `tmo` entry makes
  the read raise `TimeoutError`, and an exhausted schedule models a
  closed connection (an empty read).
* Python exceptions are modelled with `Except`; the error type `RErr`
  collects the exceptions the embedded code can raise.
* `json.dumps` / `json.loads` (Python standard library, `ensure_ascii`
  defaults) are embedded for the fragment of JSON the application
  exchanges: flat arrays of `null` / booleans / integers / strings.
-/

namespace DashDaq

/-! ## Transport model -/

/-- One unit of the receive schedule of a socket: either a chunk of bytes
the transport has made available, or a read timeout. -/
inductive Chunk
  | bs (data : List Nat)
  | tmo
  deriving DecidableEq, Repr

/-- Exceptions raised by the embedded Python code: `struct.error` (bad
unpack length), `TimeoutError`, `ConnectionResetError`,
`UnicodeDecodeError`, `json.JSONDecodeError`; `outOfFuel` marks a
modelling artifact (a loop that would not terminate on the given
schedule). -/
inductive RErr
  | structError
  | timeout
  | reset
  | unicodeError
  | jsonError
  | outOfFuel
  deriving DecidableEq, Repr

/-- `socket.recv(n)` on a receive schedule: `recv 0` returns `b''` at
once; otherwise the next chunk is consumed (at most `n` bytes of it), a
`tmo` entry raises `TimeoutError`, and an empty schedule (closed
connection) yields an empty read. -/
def recv (n : Nat) (s : List Chunk) : Except RErr (List Nat × List Chunk) :=
  if n = 0 then .ok ([], s)
  else
    match s with
    | [] => .ok ([], [])
    | Chunk.tmo :: _ => .error .timeout
    | Chunk.bs d :: rest =>
        if d.length ≤ n then .ok (d, rest)
        else .ok (d.take n, Chunk.bs (d.drop n) :: rest)

/-- `struct.pack('<I', v)`: the four little-endian bytes of `v`
(callers must have `v < 2^32`; `struct.pack` raises otherwise and the
senders below guard for it). -/
def le32 (v : Nat) : List Nat :=
  [v % 256, v / 256 % 256, v / 65536 % 256, v / 16777216 % 256]

/-- `struct.unpack('<I', bs)`: succeeds only on exactly four bytes,
raising `struct.error` otherwise. -/
def unpackU32 (bs : List Nat) : Except RErr Nat :=
  match bs with
  | [a, b, c, d] => .ok (a + 256 * b + 65536 * c + 16777216 * d)
  | _ => .error .structError

theorem unpackU32_le32 (v : Nat) (h : v < 4294967296) :
    unpackU32 (le32 v) = .ok v := by
  simp only [le32, unpackU32]
  congr 1
  omega

/-! ## UTF-8 -/

/-- UTF-8 encoding of a single code point (`str.encode('utf-8')`,
one character). -/
def utf8EncodeChar (c : Nat) : List Nat :=
  if c < 128 then [c]
  else if c < 2048 then [192 + c / 64, 128 + c % 64]
  else if c < 65536 then [224 + c / 4096, 128 + c / 64 % 64, 128 + c % 64]
  else [240 + c / 262144, 128 + c / 4096 % 64, 128 + c / 64 % 64, 128 + c % 64]

/-- `str.encode('utf-8')` over a whole string (code-point list). -/
def utf8Encode (s : List Nat) : List Nat :=
  s.flatMap utf8EncodeChar

/-- Whether a byte is a UTF-8 continuation byte. -/
def isCont (b : Nat) : Bool := 128 ≤ b && b < 192

/-- Decode the tail of a two-byte UTF-8 sequence whose lead byte is `b`. -/
def utf8Tail2 (b : Nat) : List Nat → Option (Nat × List Nat)
  | b2 :: r2 =>
      if isCont b2 then some ((b - 192) * 64 + (b2 - 128), r2) else none
  | _ => none

/-- Decode the tail of a three-byte UTF-8 sequence whose lead byte is `b`. -/
def utf8Tail3 (b : Nat) : List Nat → Option (Nat × List Nat)
  | b2 :: b3 :: r3 =>
      if isCont b2 && isCont b3 then
        some ((b - 224) * 4096 + (b2 - 128) * 64 + (b3 - 128), r3)
      else none
  | _ => none

/-- Decode the tail of a four-byte UTF-8 sequence whose lead byte is `b`. -/
def utf8Tail4 (b : Nat) : List Nat → Option (Nat × List Nat)
  | b2 :: b3 :: b4 :: r4 =>
      if isCont b2 && isCont b3 && isCont b4 then
        some ((b - 240) * 262144 + (b2 - 128) * 4096 + (b3 - 128) * 64 + (b4 - 128), r4)
      else none
  | _ => none

/-- Decode one UTF-8 sequence from the front of a byte string: the code
point and the remaining bytes, or `none` on a malformed lead byte. -/
def utf8DecodeOne : List Nat → Option (Nat × List Nat)
  | [] => none
  | b :: rest =>
    if b < 128 then some (b, rest)
    else if b < 192 then none
    else if b < 224 then utf8Tail2 b rest
    else if b < 240 then utf8Tail3 b rest
    else utf8Tail4 b rest

/-- Fueled worker for `utf8Decode`; each decoded character consumes at
least one byte, so `length + 1` fuel always suffices. -/
def utf8DecodeAux : Nat → List Nat → Option (List Nat)
  | 0, _ => none
  | _ + 1, [] => some []
  | f + 1, b :: rest =>
    match utf8DecodeOne (b :: rest) with
    | some (c, r) => (utf8DecodeAux f r).map (c :: ·)
    | none => none

/-- `bytes.decode('utf-8')`: rebuild the code points, `none` on a
malformed sequence (Python raises `UnicodeDecodeError`). -/
def utf8Decode (bsl : List Nat) : Option (List Nat) :=
  utf8DecodeAux (bsl.length + 1) bsl

/-- An ASCII code point encodes to itself, so `utf8Encode` is the
identity on ASCII strings. -/
theorem utf8Encode_ascii (s : List Nat) (h : ∀ c ∈ s, c < 128) :
    utf8Encode s = s := by
  induction s with
  | nil => rfl
  | cons c cs ih =>
      have hc : c < 128 := h c (List.mem_cons_self c cs)
      simp only [utf8Encode, List.flatMap_cons] at *
      rw [utf8EncodeChar, if_pos hc]
      simp only [List.singleton_append, List.cons.injEq, true_and]
      exact ih fun x hx => h x (List.mem_cons_of_mem _ hx)

theorem utf8DecodeAux_ascii (s : List Nat) :
    ∀ fuel, s.length < fuel → (∀ c ∈ s, c < 128) →
      utf8DecodeAux fuel s = some s := by
  induction s with
  | nil =>
      intro fuel hf _
      match fuel, hf with
      | f + 1, _ => rfl
  | cons c cs ih =>
      intro fuel hf h
      have hc : c < 128 := h c (List.mem_cons_self c cs)
      match fuel, hf with
      | f + 1, hf =>
          have ih' := ih f (by simpa using hf) fun x hx => h x (List.mem_cons_of_mem _ hx)
          simp [utf8DecodeAux, utf8DecodeOne, if_pos hc, ih']

/-- Decoding an all-ASCII byte string returns it unchanged. -/
theorem utf8Decode_ascii (s : List Nat) (h : ∀ c ∈ s, c < 128) :
    utf8Decode s = some s :=
  utf8DecodeAux_ascii s (s.length + 1) (Nat.lt_succ_self _) h

/-! ## JSON fragment (`json.dumps` / `json.loads`, `ensure_ascii`)

The application exchanges flat JSON arrays (channel lists, gain lists,
device-descriptor lists).  The embedding covers arrays whose members are
`null`, booleans, integers or strings; `json.dumps` is modelled with its
defaults (`ensure_ascii=True`, separator `", "`), `json.loads` as a
strict recursive-descent parser for the same fragment. -/

/-- A scalar member of a JSON array, as the application uses them. -/
inductive JItem
  | jnull
  | jbool (b : Bool)
  | jint (n : Int)
  | jstr (s : List Nat)
  deriving DecidableEq, Repr

/-- Lower-case hex digit of a nibble, as `'%04x'` formatting uses. -/
def hexDig (n : Nat) : Nat :=
  if n < 10 then 48 + n else 87 + n

/-- The four lower-case hex digits of `n % 0x10000` (`'\u%04x'`). -/
def hex4 (n : Nat) : List Nat :=
  [hexDig (n / 4096 % 16), hexDig (n / 256 % 16), hexDig (n / 16 % 16), hexDig (n % 16)]

/-- `json.dumps` escaping of one string character with `ensure_ascii`:
printable ASCII passes through, the short escapes cover the usual
control characters, everything else becomes `\uXXXX` (a surrogate pair
for code points beyond the BMP). -/
def escChar (c : Nat) : List Nat :=
  if c = 34 then [92, 34]
  else if c = 92 then [92, 92]
  else if 32 ≤ c ∧ c < 127 then [c]
  else if c = 8 then [92, 98]
  else if c = 9 then [92, 116]
  else if c = 10 then [92, 110]
  else if c = 12 then [92, 102]
  else if c = 13 then [92, 114]
  else if c < 65536 then 92 :: 117 :: hex4 c
  else (92 :: 117 :: hex4 (55296 + (c - 65536) / 1024)) ++
       (92 :: 117 :: hex4 (56320 + (c - 65536) % 1024))

/-- The escaped body of a dumped JSON string. -/
def escapeStr (s : List Nat) : List Nat :=
  s.flatMap escChar

/-- Fueled decimal digits (most significant first) of a natural number;
`natDigits` supplies enough fuel. -/
def natDigitsAux : Nat → Nat → List Nat
  | 0, _ => []
  | f + 1, n => if n = 0 then [] else natDigitsAux f (n / 10) ++ [48 + n % 10]

/-- Decimal representation of a natural number (code points). -/
def natDigits (n : Nat) : List Nat :=
  if n = 0 then [48] else natDigitsAux (n + 1) n

/-- `repr` of a Python int, as `json.dumps` prints integers. -/
def dumpsInt (n : Int) : List Nat :=
  if n < 0 then 45 :: natDigits n.natAbs else natDigits n.toNat

/-- `json.dumps` of one array member. -/
def dumpsItem : JItem → List Nat
  | .jnull => [110, 117, 108, 108]
  | .jbool true => [116, 114, 117, 101]
  | .jbool false => [102, 97, 108, 115, 101]
  | .jint n => dumpsInt n
  | .jstr s => 34 :: escapeStr s ++ [34]

/-- The `", "`-separated continuation of a dumped array (`json.dumps`
default separators). -/
def sepDump (xs : List JItem) : List Nat :=
  xs.flatMap (fun y => 44 :: 32 :: dumpsItem y)

/-- `json.dumps` of a flat array with the library defaults. -/
def dumps : List JItem → List Nat
  | [] => [91, 93]
  | x :: xs => 91 :: (dumpsItem x ++ sepDump xs ++ [93])

/-- Value of one hex digit character (`json` accepts both cases). -/
def hexVal (c : Nat) : Option Nat :=
  if 48 ≤ c ∧ c ≤ 57 then some (c - 48)
  else if 97 ≤ c ∧ c ≤ 102 then some (c - 87)
  else if 65 ≤ c ∧ c ≤ 70 then some (c - 55)
  else none

/-- Parse exactly four hex digits (`_decode_uXXXX` in `json.decoder`). -/
def parseHex4 : List Nat → Option (Nat × List Nat)
  | a :: b :: c :: d :: rest =>
    match hexVal a, hexVal b, hexVal c, hexVal d with
    | some va, some vb, some vc, some vd =>
        some (va * 4096 + vb * 256 + vc * 16 + vd, rest)
    | _, _, _, _ => none
  | _ => none

/-- Parse the `XXXX` of a `\uXXXX` escape, combining a high surrogate
with an immediately following `\uXXXX` low surrogate exactly as
`json.decoder.py_scanstring` does (a lone surrogate is kept as-is; a
syntactically present but malformed second escape is an error). -/
def parseUEscape (r : List Nat) : Option (Nat × List Nat) :=
  match parseHex4 r with
  | none => none
  | some (u, r3) =>
    if 55296 ≤ u ∧ u < 56320 then
      match r3 with
      | 92 :: 117 :: r4 =>
        match parseHex4 r4 with
        | none => none
        | some (u2, r5) =>
            if 56320 ≤ u2 ∧ u2 < 57344 then
              some (65536 + (u - 55296) * 1024 + (u2 - 56320), r5)
            else some (u, r3)
      | _ => some (u, r3)
    else some (u, r3)

/-- Parse the character after a backslash in a JSON string. -/
def parseEscape : List Nat → Option (Nat × List Nat)
  | [] => none
  | e :: r2 =>
    if e = 34 then some (34, r2)
    else if e = 92 then some (92, r2)
    else if e = 47 then some (47, r2)
    else if e = 98 then some (8, r2)
    else if e = 102 then some (12, r2)
    else if e = 110 then some (10, r2)
    else if e = 114 then some (13, r2)
    else if e = 116 then some (9, r2)
    else if e = 117 then parseUEscape r2
    else none

/-- One step of JSON string scanning: the closing quote, or one
(possibly escaped) character.  Raw control characters are rejected, as
`json.loads` does in its default strict mode. -/
inductive StrTok
  | done
  | ch (c : Nat)
  deriving DecidableEq, Repr

/-- Scan one token of a JSON string body. -/
def parseStrStep : List Nat → Option (StrTok × List Nat)
  | [] => none
  | c :: rest =>
    if c = 34 then some (.done, rest)
    else if c = 92 then (parseEscape rest).map (fun p => (.ch p.1, p.2))
    else if c < 32 then none
    else some (.ch c, rest)

/-- Fueled JSON string-body parser: the decoded characters up to the
closing quote and the remaining input. -/
def parseStringBodyAux : Nat → List Nat → Option (List Nat × List Nat)
  | 0, _ => none
  | f + 1, s =>
    match parseStrStep s with
    | none => none
    | some (.done, rest) => some ([], rest)
    | some (.ch c, rest) => (parseStringBodyAux f rest).map (fun p => (c :: p.1, p.2))

/-- Parse a JSON string body (everything after the opening quote). -/
def parseStringBody (s : List Nat) : Option (List Nat × List Nat) :=
  parseStringBodyAux (s.length + 1) s

/-- Greedy decimal-digit scan with an accumulator. -/
def parseDigits : List Nat → Nat → Nat × List Nat
  | [], acc => (acc, [])
  | c :: rest, acc =>
    if 48 ≤ c ∧ c ≤ 57 then parseDigits rest (acc * 10 + (c - 48))
    else (acc, c :: rest)

/-- Whether a (possibly empty) string does not begin with a digit. -/
def headNotDigit : List Nat → Prop
  | [] => True
  | c :: _ => ¬(48 ≤ c ∧ c ≤ 57)

/-- Parse a JSON integer token: an optional sign and a nonempty greedy
digit run. -/
def parseIntTok (s : List Nat) : Option (Int × List Nat) :=
  match s with
  | [] => none
  | c :: rest =>
    if c = 45 then
      match rest with
      | [] => none
      | c2 :: _ =>
          if 48 ≤ c2 ∧ c2 ≤ 57 then
            let p := parseDigits rest 0
            some (-(p.1 : Int), p.2)
          else none
    else if 48 ≤ c ∧ c ≤ 57 then
      let p := parseDigits (c :: rest) 0
      some ((p.1 : Int), p.2)
    else none

/-- The tail of the literal `null` after its lead character. -/
def parseNullTail : List Nat → Option (JItem × List Nat)
  | 117 :: 108 :: 108 :: r => some (.jnull, r)
  | _ => none

/-- The tail of the literal `true` after its lead character. -/
def parseTrueTail : List Nat → Option (JItem × List Nat)
  | 114 :: 117 :: 101 :: r => some (.jbool true, r)
  | _ => none

/-- The tail of the literal `false` after its lead character. -/
def parseFalseTail : List Nat → Option (JItem × List Nat)
  | 97 :: 108 :: 115 :: 101 :: r => some (.jbool false, r)
  | _ => none

/-- Parse one array member of the embedded JSON fragment. -/
def parseItem : List Nat → Option (JItem × List Nat)
  | [] => none
  | c :: rest =>
    if c = 110 then parseNullTail rest
    else if c = 116 then parseTrueTail rest
    else if c = 102 then parseFalseTail rest
    else if c = 34 then
      (parseStringBody rest).map (fun p => (.jstr p.1, p.2))
    else if c = 45 ∨ (48 ≤ c ∧ c ≤ 57) then
      (parseIntTok (c :: rest)).map (fun p => (.jint p.1, p.2))
    else none

/-- Skip JSON whitespace. -/
def skipWs : List Nat → List Nat
  | [] => []
  | c :: rest =>
    if c = 32 ∨ c = 9 ∨ c = 10 ∨ c = 13 then skipWs rest else c :: rest

/-- Fueled parser for the members of a nonempty JSON array: one item,
then either `", "`-continuation or the closing bracket. -/
def parseElems : Nat → List Nat → Option (List JItem × List Nat)
  | 0, _ => none
  | f + 1, s =>
    match parseItem (skipWs s) with
    | none => none
    | some (x, r1) =>
      match skipWs r1 with
      | 44 :: r3 =>
          (parseElems f r3).map (fun p => (x :: p.1, p.2))
      | 93 :: r3 => some ([x], r3)
      | _ => none

/-- The contents of a JSON array after the opening bracket, whitespace
already skipped: an immediate `]` or the member list. -/
def jsonLoadsArr : List Nat → Option (List JItem)
  | [] => none
  | c2 :: r2 =>
    if c2 = 93 then (if skipWs r2 = [] then some [] else none)
    else
      match parseElems ((c2 :: r2).length + 1) (c2 :: r2) with
      | some (l, rest) => if skipWs rest = [] then some l else none
      | none => none

/-- The top-level JSON value, leading whitespace already skipped: the
fragment accepts exactly a flat array. -/
def jsonLoadsTop : List Nat → Option (List JItem)
  | [] => none
  | c :: r => if c = 91 then jsonLoadsArr (skipWs r) else none

/-- `json.loads` restricted to the embedded fragment: a flat array of
scalars, with no trailing garbage. -/
def jsonLoads (s : List Nat) : Option (List JItem) :=
  jsonLoadsTop (skipWs s)

/-! ## Frame codec (`server.py` `get_msg` / `send_msg`;
`DaqSocketManager.get_msg` / `send_msg` are verbatim copies) -/

/-- The length/value prefix read shared by every `get_msg` branch:
`conn.recv(ctypes.sizeof(ctypes.c_uint))` followed by
`struct.unpack('<I', ...)` — a single `recv`, whose short result makes
`struct.unpack` raise. -/
def getMsgLen (s : List Chunk) : Except RErr (Nat × List Chunk) := do
  let (recvStr, s1) ← recv 4 s
  let v ← unpackU32 recvStr
  .ok (v, s1)

/-- `get_msg(conn, 'int')`: the four prefix bytes are the value itself. -/
def getMsgInt (s : List Chunk) : Except RErr (Nat × List Chunk) :=
  getMsgLen s

/-- `get_msg(conn, 'str')`: read the length prefix, then a single
`conn.recv(bytes_to_recv)`; the raw bytes are returned undecoded. -/
def getMsgStr (s : List Chunk) : Except RErr (List Nat × List Chunk) := do
  let (n, s1) ← getMsgLen s
  let (bytes2, s2) ← recv n s1
  .ok (bytes2, s2)

/-- `get_msg(conn, 'list')`: read the length prefix, a single
`conn.recv`, then `json.loads(s.decode('utf-8'))`. -/
def getMsgList (s : List Chunk) : Except RErr (List JItem × List Chunk) := do
  let (n, s1) ← getMsgLen s
  let (bytes2, s2) ← recv n s1
  match utf8Decode bytes2 with
  | none => .error .unicodeError
  | some cps =>
    match jsonLoads cps with
    | none => .error .jsonError
    | some item => .ok (item, s2)

/-- `send_msg(conn, itm)` for `int`: one `sendall` of
`struct.pack('<I', itm)`; `struct.pack` raises outside `uint32` range
(modelled as `none`). -/
def sendMsgInt (v : Nat) : Option (List (List Nat)) :=
  if v < 4294967296 then some [le32 v] else none

/-- `send_msg(conn, itm)` for `str`: `sendall(struct.pack('<I', len(itm)))`
then `sendall(itm.encode('utf-8'))`.  Note the prefix counts
*characters* (`len` of the `str`), while the payload is the UTF-8
*bytes*. -/
def sendMsgStr (s : List Nat) : Option (List (List Nat)) :=
  if s.length < 4294967296 then some [le32 s.length, utf8Encode s] else none

/-- `send_msg(conn, itm)` for `list`: dump to JSON, send
`len(json_string)` then the encoded JSON text. -/
def sendMsgList (l : List JItem) : Option (List (List Nat)) :=
  if (dumps l).length < 4294967296 then
    some [le32 (dumps l).length, utf8Encode (dumps l)]
  else none

/-- The receive schedule seen by a peer when each `sendall` arrives as
its own TCP segment. -/
def wireOf (sends : List (List Nat)) : List Chunk :=
  sends.map Chunk.bs

/-! ## Stream forwarder (`server.py` `read_device_scans`) -/

/-- `int(sample_rate * number_of_channels / 2)` — the minimum batch the
forwarder will send (about half a second of samples). -/
def threshold (rate nchan : Nat) : Nat := rate * nchan / 2

/-- `buffer_size = (one_second - (one_second % 96)) * 10` with
`one_second = sample_rate * number_of_channels`. -/
def bufferSize (rate nchan : Nat) : Nat :=
  (rate * nchan - rate * nchan % 96) * 10

/-- Ring-buffer occupancy as the spec defines it:
`(head - tail) mod capacity`. -/
def occupancy (cap tl hd : Nat) : Nat := (cap + hd - tl) % cap

/-- One poll cycle of the forwarder loop body (`read_device_scans`,
lines 137–165): given the device `head` and current `tail`, either emit
a `(count, payload)` pair and advance `tail` to `head`, or emit nothing.
`data` is the scaled sample buffer the device fills. -/
def pollCycle {α : Type} (rate nchan bufSize : Nat) (data : Nat → α)
    (tl hd : Nat) : Option (Nat × List α) × Nat :=
  if hd > tl then
    if hd - tl > rate * nchan / 2 then
      (some (hd - tl, (List.range (hd - tl)).map (fun i => data (tl + i))), hd)
    else (none, tl)
  else
    let sending := bufSize - tl + hd
    if sending > rate * nchan / 2 then
      (some (sending,
        ((List.range (bufSize - tl)).map (fun i => data (tl + i))) ++
          (List.range hd).map data), hd)
    else (none, tl)

/-! ## Connection admission (`server.py` `start_server` accept loop) -/

/-- The worker threads the accept loop can observe via
`threading.active_count() - 1`: connection handlers and forwarder
threads (the main thread is subtracted). -/
structure SrvState where
  handlers : Nat
  forwarders : Nat
  deriving DecidableEq, Repr

/-- Events of the server process: a connection arrives at the accept
loop; a handler finishes; a streaming handler spawns its forwarder; a
forwarder finishes. -/
inductive SrvEvent
  | accept
  | handlerExit
  | forwarderStart
  | forwarderExit
  deriving DecidableEq, Repr

/-- One transition of the server process.  `accept` closes the new
connection when `active_count() - 1 > 1` and otherwise dispatches a new
handler thread; a forwarder can only be spawned by a live handler. -/
def srvStep (st : SrvState) : SrvEvent → SrvState
  | .accept =>
      if st.handlers + st.forwarders > 1 then st
      else { st with handlers := st.handlers + 1 }
  | .handlerExit => { st with handlers := st.handlers - 1 }
  | .forwarderStart =>
      if st.handlers = 0 then st else { st with forwarders := st.forwarders + 1 }
  | .forwarderExit => { st with forwarders := st.forwarders - 1 }

/-- Run the server from its initial state (no workers) over an event
trace. -/
def srvRun (es : List SrvEvent) : SrvState :=
  es.foldl srvStep ⟨0, 0⟩

/-! ## Command dispatcher (`server.py` `handle_client`) -/

/-- The per-connection state `handle_client` keeps in locals:
`board_selected`, `board_number`, whether the stop event is set, and
whether a forwarder thread handle is held. -/
structure Session where
  boardSelected : Bool
  boardNumber : Nat
  stopEventSet : Bool
  hasThread : Bool
  deriving DecidableEq, Repr

/-- An argument frame a command reads from the connection
(`get_msg(conn, 'int')` or `get_msg(conn, 'list')`). -/
inductive InArg
  | aint (n : Nat)
  | alist (l : List JItem)
  deriving DecidableEq, Repr

/-- A reply frame the dispatcher sends (`send_msg`). -/
inductive OutFrame
  | listFrame (l : List JItem)
  | strFrame (s : List Nat)
  | intFrame (n : Nat)
  deriving DecidableEq, Repr

/-- The `Config` namedtuple assembled by the `start` command. -/
structure AcqConfig where
  board : Nat
  channels : List JItem
  ranges : List JItem
  samples : Nat
  rate : Nat
  deriving DecidableEq, Repr

/-- The collaborators `handle_client` consults: the device inventory
(`boards.read_boards()`) and each board's serial number
(`boards.read_dev_desc(n).unique_id`). -/
structure DispatchEnv where
  dlist : List JItem
  serialOf : Nat → List Nat

/-- Result of dispatching one command: the updated session, the reply
frames sent, the forwarder configuration spawned (if any), and whether
the command loop breaks. -/
structure DispatchResult where
  sess : Session
  sent : List OutFrame
  spawned : Option AcqConfig
  closed : Bool
  deriving Repr

/-- Code points of the command words `handle_client` matches on. -/
def cmdList : List Nat := [108, 105, 115, 116]
def cmdOpen : List Nat := [111, 112, 101, 110]
def cmdStart : List Nat := [115, 116, 97, 114, 116]
def cmdStop : List Nat := [115, 116, 111, 112]
def cmdExit : List Nat := [101, 120, 105, 116]

/-- `str.lower()` on the ASCII range, as applied to the received
command. -/
def pyLower (s : List Nat) : List Nat :=
  s.map (fun c => if 65 ≤ c ∧ c ≤ 90 then c + 32 else c)

/-- The `match message:` body of `handle_client` for one received
command; `args` are the argument frames the command would read from the
connection, in order. -/
def dispatch (env : DispatchEnv) (sess : Session) (msg : List Nat)
    (args : List InArg) : DispatchResult :=
  if msg = cmdList then
    ⟨sess, [.listFrame env.dlist], none, false⟩
  else if msg = cmdOpen then
    if sess.boardSelected = false then
      match args with
      | .aint bn :: _ =>
          ⟨{ sess with boardSelected := true, boardNumber := bn },
           [.strFrame (env.serialOf bn)], none, false⟩
      | _ => ⟨sess, [], none, false⟩
    else ⟨sess, [], none, false⟩
  else if msg = cmdStart then
    if sess.boardSelected = false then
      ⟨sess, [], none, false⟩
    else
      match args with
      | .alist chans :: .alist rngs :: .aint rate :: .aint window :: _ =>
          ⟨{ sess with stopEventSet := true, hasThread := true },
           [], some ⟨sess.boardNumber, chans, rngs, window, rate⟩, false⟩
      | _ => ⟨sess, [], none, false⟩
  else if msg = cmdStop then
    if sess.stopEventSet then
      ⟨{ sess with stopEventSet := false, hasThread := false,
                   boardSelected := false }, [], none, false⟩
    else
      ⟨{ sess with boardSelected := false }, [], none, false⟩
  else if msg = cmdExit then
    ⟨sess, [], none, true⟩
  else ⟨sess, [], none, false⟩

/-- One inbound command as the dispatch loop sees it: the raw bytes
`get_msg(conn, 'str')` returned, and the argument frames available to
the command. -/
structure CmdMsg where
  bytes : List Nat
  args : List InArg

/-- The `while True:` dispatch loop of `handle_client` over a sequence
of inbound commands.  Returns the frames sent and whether the loop was
left (after which `conn.close()` runs).  An empty `bytes` value breaks
the loop before any decoding or dispatch; a command list that runs out
models a connection that is still blocked in `get_msg`. -/
def handleClientLoop (env : DispatchEnv) : Session → List CmdMsg →
    List OutFrame × Bool
  | _, [] => ([], false)
  | sess, m :: rest =>
    if m.bytes.isEmpty then ([], true)
    else
      match utf8Decode m.bytes with
      | none => ([], false)
      | some cps =>
        let r := dispatch env sess (pyLower cps) m.args
        if r.closed then (r.sent, true)
        else
          let (outs, t) := handleClientLoop env r.sess rest
          (r.sent ++ outs, t)

/-! ## Consumer socket manager (`daqSocketManager.py`) -/

/-- The `DaqSocketManager` attributes the receiver loop and
`stop_server` touch. -/
structure MgrState where
  running : Bool
  stopEventSet : Bool
  newData : Bool
  dataList : List Int
  deriving DecidableEq, Repr

/-- What one iteration of `read_server_scans` observes: a complete
count-plus-payload delivery, a read timeout, or a connection reset. -/
inductive RecvEvent
  | frame (samples : List Int)
  | tmo
  | reset
  deriving DecidableEq, Repr

/-- `read_server_scans`: each schedule entry pairs the value of
`self.stop_event.is_set()` read at the loop head with what the
subsequent reads deliver.  `none` models a loop still blocked when the
schedule runs out. -/
def readServerScans : MgrState → List (Bool × RecvEvent) → Option MgrState
  | _, [] => none
  | st, (stopSet, ev) :: rest =>
    if stopSet = false then some { st with newData := false }
    else
      match ev with
      | .frame samples =>
          readServerScans { st with dataList := samples, newData := true } rest
      | .tmo => some { st with newData := false }
      | .reset => some st

/-- The inner accumulation loop of `read_server_scans` (lines 348–352):
keep calling `recv(chunk_size - len(recv_str))` until `chunk_size`
bytes are held.  Fuel models the loop's unbounded iteration (it spins
forever if the connection closes mid-block). -/
def readChunks : Nat → Nat → List Nat → List Chunk →
    Except RErr (List Nat × List Chunk)
  | 0, _, _, _ => .error .outOfFuel
  | f + 1, chunkSize, acc, s =>
    if acc.length < chunkSize then
      match recv (chunkSize - acc.length) s with
      | .error e => .error e
      | .ok (chunk, s1) => readChunks f chunkSize (acc ++ chunk) s1
    else .ok (acc, s)

/-- A Python return value of `stop_server`: the `0` of the `try` body
or the `'idle'` of the `finally` block. -/
inductive PyRet
  | vint (n : Int)
  | vstr (s : String)
  deriving DecidableEq, Repr

/-- How the sends inside `stop_server`'s `try` body fare. -/
inductive StopOutcome
  | ok
  | tmo
  | reset
  deriving DecidableEq, Repr

/-- The `try` body of `stop_server`: send `'stop'`; if `running`, clear
the stop event and join the receiver thread; return `0`. -/
def stopServerTry (st : MgrState) : StopOutcome → Except RErr (PyRet × MgrState)
  | .ok =>
      let st1 := if st.running then { st with stopEventSet := false } else st
      .ok (.vint 0, st1)
  | .tmo => .error .timeout
  | .reset => .error .reset

/-- `stop_server` with its `except` handlers (which only print) and the
`finally` block, whose `return 'idle'` overrides every earlier return
value. -/
def stopServer (st : MgrState) (outcome : StopOutcome) : PyRet × MgrState :=
  let afterTry : MgrState :=
    match stopServerTry st outcome with
    | .ok (_, st1) => st1
    | .error _ => st
  (.vstr "idle", { afterTry with running := false })

/-! ## Shared lemmas -/

/-- For in-range cursors with `head ≠ tail`, the spec's occupancy
`(head - tail) mod capacity` is `head - tail` when the region is
contiguous and `capacity - tail + head` when it wraps. -/
theorem occupancy_eq (bufSize tl hd : Nat) (htl : tl < bufSize)
    (hhd : hd < bufSize) (hne : hd ≠ tl) :
    occupancy bufSize tl hd = if tl < hd then hd - tl else bufSize - tl + hd := by
  unfold occupancy
  split
  · have h1 : bufSize + hd - tl = bufSize + (hd - tl) := by omega
    rw [h1, Nat.add_mod_left]
    exact Nat.mod_eq_of_lt (by omega)
  · have h1 : bufSize + hd - tl < bufSize := by omega
    rw [Nat.mod_eq_of_lt h1]
    omega

/-! ## Claim C2 -/

/-- C2 as stated is false: when the occupancy exactly equals the
threshold, the code's strict `>` comparison suppresses the frame.  With
`sample_rate = 96`, one channel, `buffer_size = 960`, `tail = 0`,
`head = 48`, the occupancy is `48 = threshold` yet the poll cycle emits
nothing and leaves `tail` at `0`. -/
theorem forwarder_emit_at_threshold_counterexample :
    occupancy 960 0 48 = 48 ∧ threshold 96 1 = 48 ∧
    pollCycle 96 1 960 (fun _ => (0 : Int)) 0 48 = (none, 0) := by
  refine ⟨by decide, by decide, ?_⟩
  decide

/-- C2 (amended): for every poll cycle with `head ≠ tail` in which the
occupancy is *strictly greater* than the threshold, the forwarder emits
a count frame whose value equals that occupancy, followed by a payload,
and `tail` advances to `head`. -/
theorem forwarder_emit_above_threshold {α : Type} (rate nchan bufSize : Nat)
    (data : Nat → α) (tl hd : Nat) (htl : tl < bufSize) (hhd : hd < bufSize)
    (hne : hd ≠ tl) (hocc : threshold rate nchan < occupancy bufSize tl hd) :
    ∃ payload,
      pollCycle rate nchan bufSize data tl hd =
        (some (occupancy bufSize tl hd, payload), hd) := by
  rw [occupancy_eq bufSize tl hd htl hhd hne] at *
  unfold pollCycle
  by_cases hgt : tl < hd
  · rw [if_pos hgt] at hocc
    rw [if_pos hgt, if_pos hgt]
    rw [if_pos (by exact hocc)]
    exact ⟨_, rfl⟩
  · rw [if_neg hgt] at hocc
    have hngt : ¬ hd > tl := hgt
    rw [if_neg hgt, if_neg hngt]
    simp only
    rw [if_pos (by exact hocc)]
    exact ⟨_, rfl⟩

/-- Witness for C2 (amended): with `tail = 0`, `head = 49` the occupancy
`49` exceeds the threshold `48` and the cycle advances `tail` to `49`. -/
theorem forwarder_emit_above_threshold_witness :
    ∃ payload, pollCycle 96 1 960 (fun _ => (0 : Int)) 0 49 =
      (some (occupancy 960 0 49, payload), 49) :=
  forwarder_emit_above_threshold 96 1 960 (fun _ => (0 : Int)) 0 49
    (by decide) (by decide) (by decide) (by decide)

/-! ## Claim C3 -/

/-- C3 as stated is false at `head = tail`: the occupancy is `0`, below
any positive threshold, yet the code's `else` branch computes
`sending = buffer_size - tail + head = buffer_size` and emits a
spurious full-capacity frame.  With `tail = head = 5` and the C2
parameters the cycle emits a 960-sample frame. -/
theorem forwarder_idle_below_threshold_counterexample :
    occupancy 960 5 5 = 0 ∧ threshold 96 1 = 48 ∧
    ((pollCycle 96 1 960 (fun _ => (0 : Int)) 5 5).1.map Prod.fst = some 960) := by
  refine ⟨by decide, by decide, ?_⟩
  rfl

/-- C3 (amended): for every poll cycle with `head ≠ tail` in which the
occupancy is below the threshold, no frame is emitted and `tail` is
unchanged.  (At `head = tail` the code misreads the empty buffer as
full and emits a spurious full-capacity frame whenever
`capacity > threshold`.) -/
theorem forwarder_idle_below_threshold {α : Type} (rate nchan bufSize : Nat)
    (data : Nat → α) (tl hd : Nat) (htl : tl < bufSize) (hhd : hd < bufSize)
    (hne : hd ≠ tl) (hocc : occupancy bufSize tl hd < threshold rate nchan) :
    pollCycle rate nchan bufSize data tl hd = (none, tl) := by
  rw [occupancy_eq bufSize tl hd htl hhd hne] at hocc
  unfold pollCycle
  by_cases hgt : tl < hd
  · rw [if_pos hgt] at hocc
    rw [if_pos hgt, if_neg (by unfold threshold at hocc; omega)]
  · rw [if_neg hgt] at hocc
    have hngt : ¬ hd > tl := hgt
    rw [if_neg hngt]
    simp only
    rw [if_neg (by unfold threshold at hocc; omega)]

/-- Witness for C3 (amended): occupancy `10 < 48` with `head ≠ tail`
emits nothing. -/
theorem forwarder_idle_below_threshold_witness :
    pollCycle 96 1 960 (fun _ => (0 : Int)) 0 10 = (none, 0) :=
  forwarder_idle_below_threshold 96 1 960 (fun _ => (0 : Int)) 0 10
    (by decide) (by decide) (by decide) (by decide)

/-! ## Claim C4 -/

/-- C4 (confirmed): whenever `tail + occupancy > capacity` (the read
range wraps) and the poll cycle emits, the emitted payload is exactly
the buffer segment `[tail, capacity)` followed by `[0, head)`, its
length is exactly the occupancy (no sample lost or duplicated at the
seam), and the count frame equals the occupancy. -/
theorem forwarder_wraparound {α : Type} (rate nchan bufSize : Nat)
    (data : Nat → α) (tl hd : Nat) (htl : tl < bufSize) (hhd : hd < bufSize)
    (hwrap : bufSize < tl + occupancy bufSize tl hd)
    (cnt : Nat) (payload : List α)
    (hemit : (pollCycle rate nchan bufSize data tl hd).1 = some (cnt, payload)) :
    payload = ((List.range (bufSize - tl)).map (fun i => data (tl + i))) ++
      (List.range hd).map data ∧
    payload.length = occupancy bufSize tl hd ∧
    cnt = occupancy bufSize tl hd := by
  have hne : hd ≠ tl := by
    intro h
    rw [h] at hwrap
    unfold occupancy at hwrap
    rw [Nat.add_sub_cancel, Nat.mod_self] at hwrap
    omega
  have hocc := occupancy_eq bufSize tl hd htl hhd hne
  by_cases hgt : tl < hd
  · rw [if_pos hgt] at hocc
    omega
  · rw [if_neg hgt] at hocc
    have hngt : ¬ hd > tl := hgt
    unfold pollCycle at hemit
    rw [if_neg hngt] at hemit
    simp only at hemit
    by_cases hsend : bufSize - tl + hd > rate * nchan / 2
    · rw [if_pos hsend] at hemit
      simp only [Option.some.injEq, Prod.mk.injEq] at hemit
      obtain ⟨hcnt, hpl⟩ := hemit
      refine ⟨hpl.symm, ?_, by omega⟩
      rw [← hpl]
      simp [List.length_append, List.length_map, List.length_range]
      omega
    · rw [if_neg hsend] at hemit
      exact absurd hemit (by simp)

/-- Witness for C4: capacity `8`, `tail = 6`, `head = 3`: the payload is
`data[6:8] ++ data[0:3]`, five samples. -/
theorem forwarder_wraparound_witness :
    ([6, 7, 0, 1, 2] : List Int).length = occupancy 8 6 3 :=
  (forwarder_wraparound 4 1 8 (fun i => (i : Int)) 6 3
    (by decide) (by decide) (by decide) 5 [6, 7, 0, 1, 2] (by decide)).2.1

/-! ## Claim C6 -/

/-- C6 as stated is false: the admission check
`threading.active_count() - 1 > 1` lets a second connection in while a
handler is already active.  From the initial state, two consecutive
accepts both dispatch, reaching a state with two concurrently active
handler threads. -/
theorem admission_two_handlers_counterexample :
    srvRun [SrvEvent.accept] = ⟨1, 0⟩ ∧
    srvRun [SrvEvent.accept, SrvEvent.accept] = ⟨2, 0⟩ := by
  exact ⟨rfl, rfl⟩

/-- Helper for C6 (amended): every event preserves `handlers ≤ 2`. -/
theorem srvStep_handlers_le (st : SrvState) (e : SrvEvent)
    (h : st.handlers ≤ 2) : (srvStep st e).handlers ≤ 2 := by
  obtain ⟨hs, fs⟩ := st
  dsimp only at h
  cases e <;> simp only [srvStep] <;> first
    | omega
    | (split <;> dsimp only <;> omega)

/-- C6 (amended): the accept loop closes an inbound connection exactly
when more than one worker thread (handler or forwarder) is active, so
up to *two* handler threads can be concurrently active — never more —
and a connection arriving while two workers are active is closed
without being dispatched. -/
theorem admission_bound :
    (∀ es : List SrvEvent, (srvRun es).handlers ≤ 2) ∧
    (∀ st : SrvState, 1 < st.handlers + st.forwarders →
        srvStep st SrvEvent.accept = st) := by
  constructor
  · have key : ∀ (es : List SrvEvent) (st : SrvState), st.handlers ≤ 2 →
        (es.foldl srvStep st).handlers ≤ 2 := by
      intro es
      induction es with
      | nil => intro st h; exact h
      | cons e rest ih =>
          intro st h
          exact ih (srvStep st e) (srvStep_handlers_le st e h)
    intro es
    exact key es ⟨0, 0⟩ (by decide)
  · intro st h
    simp only [srvStep, if_pos h]

/-- Witness for C6 (amended): with two handlers active, an accept is a
no-op (the connection is closed, no thread dispatched). -/
theorem admission_bound_witness :
    srvStep ⟨2, 0⟩ SrvEvent.accept = ⟨2, 0⟩ :=
  admission_bound.2 ⟨2, 0⟩ (by decide)

/-! ## Claim C7 -/

/-- C7 as stated is false: on a read timeout `read_server_scans` clears
`self.new_data`, not the running flag.  Starting with
`running = True`, a timeout leaves `running = True` (and the stop event
set); only `new_data` is cleared, while `data_list` is indeed kept. -/
theorem receiver_timeout_counterexample :
    readServerScans ⟨true, true, true, [5]⟩ [(true, RecvEvent.tmo)] =
      some ⟨true, true, false, [5]⟩ := by
  rfl

/-- C7 (amended): when a read timeout occurs at any iteration of the
receiver loop, the thread exits with `new_data` cleared, and both the
running flag and the last published `data_list` are left exactly as
they were. -/
theorem receiver_timeout_behavior (st : MgrState)
    (rest : List (Bool × RecvEvent)) :
    readServerScans st ((true, RecvEvent.tmo) :: rest) =
      some { st with newData := false } := by
  rfl

/-! ## Claim C8 -/

/-- C8 (confirmed): a `start` command dispatched while no board is
selected changes nothing — the session state is returned untouched, no
reply frame is sent, no forwarder configuration is assembled or
spawned, and the loop continues. -/
theorem start_while_idle_noop (env : DispatchEnv) (sess : Session)
    (args : List InArg) (h : sess.boardSelected = false) :
    dispatch env sess cmdStart args = ⟨sess, [], none, false⟩ := by
  simp [dispatch, cmdStart, cmdList, cmdOpen, h]

/-- Witness for C8: a concrete idle session is unchanged by `start`. -/
theorem start_while_idle_noop_witness :
    dispatch ⟨[], fun _ => []⟩ ⟨false, 0, false, false⟩ cmdStart [] =
      ⟨⟨false, 0, false, false⟩, [], none, false⟩ :=
  start_while_idle_noop ⟨[], fun _ => []⟩ ⟨false, 0, false, false⟩ [] rfl

/-! ## Claim C9 -/

/-- C9 (confirmed): `stop_server` returns `'idle'` and leaves
`running = False` on every path — success, timeout and reset alike —
because the `finally` block's `return 'idle'` overrides the `0`
returned from the `try` body (which the third conjunct exhibits). -/
theorem stop_server_returns_idle (st : MgrState) (outcome : StopOutcome) :
    (stopServer st outcome).1 = PyRet.vstr "idle" ∧
    (stopServer st outcome).2.running = false ∧
    stopServerTry st StopOutcome.ok =
      Except.ok (PyRet.vint 0,
        if st.running then { st with stopEventSet := false } else st) := by
  exact ⟨rfl, rfl, rfl⟩

/-! ## Claim C10 -/

/-- C10 (confirmed): a zero length prefix makes `get_msg(conn, 'str')`
return empty bytes (the `recv(0)` reads nothing), and the dispatch loop
treats the empty payload as end-of-input: it breaks immediately,
sending no reply and processing no further commands, after which the
connection is closed. -/
theorem empty_frame_closes_connection :
    (∀ s, getMsgStr (Chunk.bs [0, 0, 0, 0] :: s) = Except.ok ([], s)) ∧
    (∀ (env : DispatchEnv) (sess : Session) (args : List InArg)
        (rest : List CmdMsg),
        handleClientLoop env sess (⟨[], args⟩ :: rest) = ([], true)) := by
  exact ⟨fun _ => rfl, fun _ _ _ _ => rfl⟩

/-! ## Claim C5 -/

/-- Helper: the consumer's payload accumulation loop really does
accumulate — over any schedule of nonempty deliveries holding at least
`cs - acc.length` further bytes, it returns `acc` extended to exactly
`cs` bytes, in stream order. -/
theorem readChunks_accumulates (s : List (List Nat)) :
    ∀ (acc : List Nat) (cs fuel : Nat), (∀ d ∈ s, d ≠ []) →
      cs ≤ acc.length + (s.flatMap id).length → s.length + 2 ≤ fuel →
      ∃ s', readChunks fuel cs acc (s.map Chunk.bs) =
        .ok (acc ++ (s.flatMap id).take (cs - acc.length), s') := by
  induction s with
  | nil =>
      intro acc cs fuel _ hcs hfuel
      simp only [List.flatMap_nil, List.length_nil, Nat.add_zero] at hcs
      match fuel, hfuel with
      | f + 1, _ =>
          refine ⟨[], ?_⟩
          simp only [readChunks, List.map_nil, if_neg (by omega : ¬ acc.length < cs)]
          have h0 : cs - acc.length = 0 := by omega
          simp [h0]
  | cons d rest ih =>
      intro acc cs fuel hne hcs hfuel
      simp only [List.length_cons] at hfuel
      match fuel, hfuel with
      | f + 1, hfuel =>
          by_cases hlt : acc.length < cs
          · have hd_ne : d ≠ [] := hne d (List.mem_cons_self d rest)
            have hr0 : ¬ (cs - acc.length = 0) := by omega
            simp only [readChunks, if_pos hlt, List.map_cons]
            rw [recv, if_neg hr0]
            by_cases hdl : d.length ≤ cs - acc.length
            · rw [if_pos hdl]
              have hcs' : cs ≤ (acc ++ d).length + (rest.flatMap id).length := by
                simp only [List.flatMap_cons, List.length_append, id] at hcs ⊢
                omega
              obtain ⟨s', hs'⟩ := ih (acc ++ d) cs f
                (fun x hx => hne x (List.mem_cons_of_mem d hx)) hcs' (by omega)
              refine ⟨s', ?_⟩
              show readChunks f cs (acc ++ d) (List.map Chunk.bs rest) =
                Except.ok (acc ++ List.take (cs - acc.length) ((d :: rest).flatMap id), s')
              rw [hs']
              congr 2
              rw [List.flatMap_cons, List.append_assoc, id]
              congr 1
              rw [List.take_append_eq_append_take, List.take_of_length_le hdl]
              congr 2
              simp only [List.length_append]
              omega
            · rw [if_neg hdl]
              have hlen : (acc ++ d.take (cs - acc.length)).length = cs := by
                simp only [List.length_append, List.length_take]
                omega
              match f, (show rest.length + 2 ≤ f by omega) with
              | f' + 1, _ =>
                  refine ⟨Chunk.bs (d.drop (cs - acc.length)) :: rest.map Chunk.bs, ?_⟩
                  show readChunks (f' + 1) cs (acc ++ d.take (cs - acc.length))
                      (Chunk.bs (d.drop (cs - acc.length)) :: rest.map Chunk.bs) =
                    Except.ok (acc ++ List.take (cs - acc.length) ((d :: rest).flatMap id),
                      Chunk.bs (d.drop (cs - acc.length)) :: rest.map Chunk.bs)
                  simp only [readChunks,
                    if_neg (by omega : ¬ (acc ++ d.take (cs - acc.length)).length < cs)]
                  congr 2
                  rw [List.flatMap_cons, id]
                  rw [List.take_append_of_le_length (by omega : cs - acc.length ≤ d.length)]
          · refine ⟨(d :: rest).map Chunk.bs, ?_⟩
            simp only [readChunks, if_neg hlt]
            have h0 : cs - acc.length = 0 := by omega
            simp [h0]

/-- Helper: reading the length prefix from a connection whose next
chunk is exactly `struct.pack('<I', n)` yields `n`. -/
theorem getMsgLen_prefix (n : Nat) (hn : n < 4294967296) (s : List Chunk) :
    getMsgLen (Chunk.bs (le32 n) :: s) = .ok (n, s) := by
  have h : getMsgLen (Chunk.bs (le32 n) :: s) =
      (unpackU32 (le32 n)) >>= (fun v => Except.ok (v, s)) := rfl
  rw [h, unpackU32_le32 n hn]
  rfl

/-- C5 as stated is false: with ten bytes announced, only three
delivered by the first `recv`, and seven more waiting in the stream,
`get_msg(conn, 'str')` returns the three bytes at once — it neither
keeps reading nor raises any truncation error, and the remaining bytes
are left unread in the stream. -/
theorem decode_single_recv_counterexample :
    getMsgStr [Chunk.bs (le32 10), Chunk.bs [1, 2, 3],
               Chunk.bs [4, 5, 6, 7, 8, 9, 10]] =
      Except.ok ([1, 2, 3], [Chunk.bs [4, 5, 6, 7, 8, 9, 10]]) := by
  rfl

/-- C5 (amended): only the consumer's bulk payload read accumulates in
a loop until exactly the expected byte count is held; the frame
decoders `get_msg` (server and consumer alike) issue a *single* `recv`
for the length prefix and a *single* `recv` for the payload and can
return short data, and a read timeout surfaces as the propagated
`TimeoutError` — no `Truncated` protocol error exists.  Concretely:
(1) a short payload delivery is returned as-is without further reads;
(2) a timeout while reading the prefix propagates as `TimeoutError`;
(3) the accumulation loop of `read_server_scans` returns exactly the
first `chunk_size` bytes of the stream whenever they are available. -/
theorem decode_read_behavior :
    (∀ (n : Nat) (d : List Nat) (s : List Chunk), d.length < n →
        n < 4294967296 →
        getMsgStr (Chunk.bs (le32 n) :: Chunk.bs d :: s) = Except.ok (d, s)) ∧
    (∀ s, getMsgLen (Chunk.tmo :: s) = Except.error RErr.timeout) ∧
    (∀ (s : List (List Nat)) (cs : Nat), (∀ d ∈ s, d ≠ []) →
        cs ≤ (s.flatMap id).length →
        ∃ s', readChunks (s.length + 2) cs [] (s.map Chunk.bs) =
          .ok ((s.flatMap id).take cs, s') ∧
          ((s.flatMap id).take cs).length = cs) := by
  refine ⟨?_, ?_, ?_⟩
  · intro n d s hdn hn
    have hrecv : recv n (Chunk.bs d :: s) = .ok (d, s) := by
      rw [recv, if_neg (by omega : ¬ n = 0), if_pos (by omega : d.length ≤ n)]
    have h : getMsgStr (Chunk.bs (le32 n) :: Chunk.bs d :: s) =
        (getMsgLen (Chunk.bs (le32 n) :: Chunk.bs d :: s)) >>=
          (fun p => (recv p.1 p.2) >>= fun q => Except.ok (q.1, q.2)) := rfl
    rw [h, getMsgLen_prefix n hn]
    show (recv n (Chunk.bs d :: s)) >>= (fun q => Except.ok (q.1, q.2)) =
      Except.ok (d, s)
    rw [hrecv]
    rfl
  · intro s
    rfl
  · intro s cs hne hcs
    obtain ⟨s', hs'⟩ := readChunks_accumulates s [] cs (s.length + 2) hne
      (by simpa using hcs) (by omega)
    refine ⟨s', ?_, ?_⟩
    · simpa using hs'
    · simp only [List.length_take]
      omega

/-- Witness for C5 (amended): a prefix announcing four bytes answered
by a two-byte delivery returns those two bytes; a timeout propagates;
and the accumulation loop assembles `[1, 2, 3, 4]` from two deliveries. -/
theorem decode_read_behavior_witness :
    getMsgStr [Chunk.bs (le32 4), Chunk.bs [7, 8], Chunk.tmo] =
      Except.ok ([7, 8], [Chunk.tmo]) ∧
    ∃ s', readChunks 4 4 [] [Chunk.bs [1, 2], Chunk.bs [3, 4, 5]] =
      .ok (([[1, 2], [3, 4, 5]].flatMap id).take 4, s') ∧
      (([[1, 2], [3, 4, 5]].flatMap id).take 4).length = 4 :=
  ⟨decode_read_behavior.1 4 [7, 8] [Chunk.tmo] (by decide) (by decide),
   decode_read_behavior.2.2 [[1, 2], [3, 4, 5]] 4 (by decide) (by decide)⟩

/-! ## Claim C1 — JSON round-trip machinery -/

/-- A well-formed Python string character: a Unicode scalar value.
Python strings may technically hold surrogate code points, but those
cannot round-trip through `json` (an adjacent escaped surrogate pair is
recombined into a single astral character by the decoder). -/
def wfChar (c : Nat) : Prop := c < 1114112 ∧ ¬(55296 ≤ c ∧ c < 57344)

instance (c : Nat) : Decidable (wfChar c) := by
  unfold wfChar; infer_instance

/-- Well-formedness of a JSON array member: string members consist of
well-formed characters. -/
def wfItem : JItem → Prop
  | .jstr s => ∀ c ∈ s, wfChar c
  | _ => True

instance : (x : JItem) → Decidable (wfItem x)
  | .jnull => by unfold wfItem; infer_instance
  | .jbool _ => by unfold wfItem; infer_instance
  | .jint _ => by unfold wfItem; infer_instance
  | .jstr _ => by unfold wfItem; infer_instance

theorem hexVal_hexDig : ∀ d < 16, hexVal (hexDig d) = some d := by decide

theorem parseHex4_hex4 (u : Nat) (hu : u < 65536) (rest : List Nat) :
    parseHex4 (hex4 u ++ rest) = some (u, rest) := by
  have h1 := hexVal_hexDig (u / 4096 % 16) (Nat.mod_lt _ (by norm_num))
  have h2 := hexVal_hexDig (u / 256 % 16) (Nat.mod_lt _ (by norm_num))
  have h3 := hexVal_hexDig (u / 16 % 16) (Nat.mod_lt _ (by norm_num))
  have h4 := hexVal_hexDig (u % 16) (Nat.mod_lt _ (by norm_num))
  simp only [hex4, List.cons_append, List.nil_append, parseHex4, h1, h2, h3, h4]
  have key : u / 4096 % 16 * 4096 + u / 256 % 16 * 256 + u / 16 % 16 * 16 + u % 16 = u := by
    omega
  rw [key]

/-- A `\u` escape at the head of a string body hands the rest to
`parseUEscape`. -/
theorem parseStrStep_uescape (A : Nat) (X : List Nat) :
    parseStrStep ((92 :: 117 :: hex4 A) ++ X) =
      (parseUEscape (hex4 A ++ X)).map (fun p => (StrTok.ch p.1, p.2)) := rfl

/-- `parseUEscape` recombines an escaped surrogate pair. -/
theorem parseUEscape_pair (u v : Nat) (Z t : List Nat) (hs1 : 55296 ≤ u)
    (hs1b : u < 56320) (hu2 : parseHex4 Z = some (v, t)) (hs2 : 56320 ≤ v)
    (hs2b : v < 57344) :
    parseUEscape (hex4 u ++ (92 :: 117 :: Z)) =
      some (65536 + (u - 55296) * 1024 + (v - 56320), t) := by
  have hu : u < 65536 := by omega
  have hu1 := parseHex4_hex4 u hu (92 :: 117 :: Z)
  simp [parseUEscape, hu1, hu2, hs1, hs1b, hs2, hs2b]

/-- The surrogate pair `json.dumps` emits for an astral character is
decoded back to that character. -/
theorem parseUEscape_astral (c : Nat) (hlt : c < 1114112)
    (hbmp : ¬ c < 65536) (t : List Nat) :
    parseUEscape (hex4 (55296 + (c - 65536) / 1024) ++
        (92 :: 117 :: (hex4 (56320 + (c - 65536) % 1024) ++ t))) =
      some (c, t) := by
  have hlo : 56320 + (c - 65536) % 1024 < 65536 := by omega
  rw [parseUEscape_pair (55296 + (c - 65536) / 1024) (56320 + (c - 65536) % 1024)
    (hex4 (56320 + (c - 65536) % 1024) ++ t) t
    (by omega) (by omega)
    (parseHex4_hex4 _ hlo t) (by omega) (by omega)]
  have h2 : 65536 + (55296 + (c - 65536) / 1024 - 55296) * 1024 +
      (56320 + (c - 65536) % 1024 - 56320) = c := by
    omega
  rw [h2]

/-- One scan step inverts the `ensure_ascii` escaping of any
well-formed character. -/
theorem parseStrStep_escChar (c : Nat) (hc : wfChar c) (t : List Nat) :
    parseStrStep (escChar c ++ t) = some (.ch c, t) := by
  obtain ⟨hlt, hsur⟩ := hc
  by_cases h34 : c = 34
  · subst h34; rfl
  by_cases h92 : c = 92
  · subst h92; rfl
  by_cases hpr : 32 ≤ c ∧ c < 127
  · rw [escChar, if_neg h34, if_neg h92, if_pos hpr]
    simp only [List.cons_append, List.nil_append]
    simp only [parseStrStep, if_neg h34, if_neg h92,
      if_neg (by omega : ¬ c < 32)]
  by_cases h8 : c = 8
  · subst h8; rfl
  by_cases h9 : c = 9
  · subst h9; rfl
  by_cases h10 : c = 10
  · subst h10; rfl
  by_cases h12 : c = 12
  · subst h12; rfl
  by_cases h13 : c = 13
  · subst h13; rfl
  rw [escChar, if_neg h34, if_neg h92, if_neg hpr, if_neg h8, if_neg h9,
    if_neg h10, if_neg h12, if_neg h13]
  by_cases hbmp : c < 65536
  · rw [if_pos hbmp]
    have hu := parseHex4_hex4 c hbmp t
    have hns : ¬ (55296 ≤ c ∧ c < 56320) := by omega
    simp only [List.cons_append]
    simp [parseStrStep, parseEscape, parseUEscape, hu, hns]
  · rw [if_neg hbmp, List.append_assoc, parseStrStep_uescape]
    have hx : (92 :: 117 :: hex4 (56320 + (c - 65536) % 1024)) ++ t =
        92 :: 117 :: (hex4 (56320 + (c - 65536) % 1024) ++ t) := rfl
    rw [hx, parseUEscape_astral c hlt hbmp t]
    rfl

theorem escChar_ne_nil (c : Nat) : escChar c ≠ [] := by
  unfold escChar
  split_ifs <;> simp

theorem escapeStr_cons (c : Nat) (cs : List Nat) :
    escapeStr (c :: cs) = escChar c ++ escapeStr cs := rfl

theorem le_length_escapeStr (s : List Nat) : s.length ≤ (escapeStr s).length := by
  induction s with
  | nil => simp [escapeStr]
  | cons c cs ih =>
      rw [escapeStr_cons, List.length_append]
      have hpos : 0 < (escChar c).length :=
        List.length_pos.mpr (escChar_ne_nil c)
      simp only [List.length_cons]
      omega

theorem parseStringBodyAux_escape (s : List Nat) :
    ∀ (rest : List Nat) (fuel : Nat), s.length < fuel → (∀ c ∈ s, wfChar c) →
      parseStringBodyAux fuel (escapeStr s ++ 34 :: rest) = some (s, rest) := by
  induction s with
  | nil =>
      intro rest fuel hf _
      match fuel, hf with
      | f + 1, _ => rfl
  | cons c cs ih =>
      intro rest fuel hf hwf
      match fuel, hf with
      | f + 1, hf =>
          have hstep := parseStrStep_escChar c (hwf c (List.mem_cons_self c cs))
            (escapeStr cs ++ 34 :: rest)
          have ih' := ih rest f (by simp only [List.length_cons] at hf; omega)
            (fun x hx => hwf x (List.mem_cons_of_mem c hx))
          rw [escapeStr_cons, List.append_assoc]
          simp only [parseStringBodyAux, hstep, ih']
          rfl

theorem parseStringBody_escape (s rest : List Nat) (hwf : ∀ c ∈ s, wfChar c) :
    parseStringBody (escapeStr s ++ 34 :: rest) = some (s, rest) := by
  apply parseStringBodyAux_escape s rest _ _ hwf
  have := le_length_escapeStr s
  simp only [List.length_append, List.length_cons]
  omega

theorem parseDigits_append (ds : List Nat) :
    ∀ (rest : List Nat) (acc : Nat), (∀ d ∈ ds, 48 ≤ d ∧ d ≤ 57) →
      headNotDigit rest →
      parseDigits (ds ++ rest) acc =
        (ds.foldl (fun a d => a * 10 + (d - 48)) acc, rest) := by
  induction ds with
  | nil =>
      intro rest acc _ hrest
      cases rest with
      | nil => rfl
      | cons c tl =>
          simp only [List.nil_append, List.foldl_nil]
          rw [parseDigits, if_neg hrest]
  | cons d ds ih =>
      intro rest acc hds hrest
      have hd := hds d (List.mem_cons_self d ds)
      simp only [List.cons_append, List.foldl_cons]
      rw [parseDigits, if_pos hd]
      exact ih rest (acc * 10 + (d - 48))
        (fun x hx => hds x (List.mem_cons_of_mem d hx)) hrest

theorem natDigitsAux_digits (fuel : Nat) :
    ∀ n, ∀ d ∈ natDigitsAux fuel n, 48 ≤ d ∧ d ≤ 57 := by
  induction fuel with
  | zero => intro n d hd; simp [natDigitsAux] at hd
  | succ f ih =>
      intro n d hd
      rw [natDigitsAux] at hd
      by_cases h0 : n = 0
      · rw [if_pos h0] at hd; simp at hd
      · rw [if_neg h0] at hd
        rcases List.mem_append.mp hd with h | h
        · exact ih (n / 10) d h
        · simp only [List.mem_singleton] at h
          omega

theorem natDigitsAux_val (fuel : Nat) :
    ∀ (n acc : Nat), n < fuel →
      (natDigitsAux fuel n).foldl (fun a d => a * 10 + (d - 48)) acc =
        acc * 10 ^ (natDigitsAux fuel n).length + n := by
  induction fuel with
  | zero => intro n acc h; exact absurd h (Nat.not_lt_zero n)
  | succ f ih =>
      intro n acc h
      rw [natDigitsAux]
      by_cases h0 : n = 0
      · rw [if_pos h0]
        simp [h0]
      · rw [if_neg h0]
        have hlt : n / 10 < f := by omega
        rw [List.foldl_append, List.length_append]
        rw [ih (n / 10) acc hlt]
        simp only [List.foldl_cons, List.foldl_nil, List.length_cons,
          List.length_nil, Nat.zero_add]
        have hsub : 48 + n % 10 - 48 = n % 10 := by omega
        rw [hsub, pow_succ]
        have hdm : 10 * (n / 10) + n % 10 = n := Nat.div_add_mod n 10
        calc (acc * 10 ^ (natDigitsAux f (n / 10)).length + n / 10) * 10 + n % 10
            = acc * (10 ^ (natDigitsAux f (n / 10)).length * 10) +
                (10 * (n / 10) + n % 10) := by ring
          _ = acc * (10 ^ (natDigitsAux f (n / 10)).length * 10) + n := by rw [hdm]

theorem natDigits_digits (n : Nat) : ∀ d ∈ natDigits n, 48 ≤ d ∧ d ≤ 57 := by
  unfold natDigits
  split
  · intro d hd; simp only [List.mem_singleton] at hd; omega
  · exact natDigitsAux_digits (n + 1) n

theorem natDigits_val (n : Nat) :
    (natDigits n).foldl (fun a d => a * 10 + (d - 48)) 0 = n := by
  unfold natDigits
  split
  · simp [*]
  · have := natDigitsAux_val (n + 1) n 0 (Nat.lt_succ_self n)
    simpa using this

theorem natDigits_ne_nil (n : Nat) : natDigits n ≠ [] := by
  unfold natDigits
  split
  · simp
  · rw [natDigitsAux]
    split
    · omega
    · simp

theorem parseIntTok_dumpsInt (n : Int) (rest : List Nat)
    (hrest : headNotDigit rest) :
    parseIntTok (dumpsInt n ++ rest) = some (n, rest) := by
  by_cases hneg : n < 0
  · rw [dumpsInt, if_pos hneg]
    obtain ⟨d, ds, hds⟩ : ∃ d ds, natDigits n.natAbs = d :: ds := by
      cases h : natDigits n.natAbs with
      | nil => exact absurd h (natDigits_ne_nil _)
      | cons d ds => exact ⟨d, ds, rfl⟩
    have hd : 48 ≤ d ∧ d ≤ 57 :=
      natDigits_digits n.natAbs d (by rw [hds]; exact List.mem_cons_self d ds)
    have hparse := parseDigits_append (natDigits n.natAbs) rest 0
      (natDigits_digits n.natAbs) hrest
    rw [natDigits_val] at hparse
    rw [hds] at hparse
    simp only [List.cons_append, hds]
    rw [parseIntTok]
    simp only [if_pos rfl]
    rw [← List.cons_append, hparse]
    simp only [if_pos hd]
    have habs : -((n.natAbs : Nat) : Int) = n := by omega
    rw [habs]
    simp
  · rw [dumpsInt, if_neg hneg]
    obtain ⟨d, ds, hds⟩ : ∃ d ds, natDigits n.toNat = d :: ds := by
      cases h : natDigits n.toNat with
      | nil => exact absurd h (natDigits_ne_nil _)
      | cons d ds => exact ⟨d, ds, rfl⟩
    have hd : 48 ≤ d ∧ d ≤ 57 :=
      natDigits_digits n.toNat d (by rw [hds]; exact List.mem_cons_self d ds)
    have hparse := parseDigits_append (natDigits n.toNat) rest 0
      (natDigits_digits n.toNat) hrest
    rw [natDigits_val] at hparse
    rw [hds] at hparse
    simp only [hds, List.cons_append]
    rw [parseIntTok.eq_def]
    simp only
    rw [if_neg (by omega : ¬ d = 45), if_pos hd]
    rw [← List.cons_append, hparse]
    have htn : ((n.toNat : Nat) : Int) = n := by omega
    rw [htn]

theorem parseItem_dumpsItem (x : JItem) (rest : List Nat) (hwf : wfItem x)
    (hrest : headNotDigit rest) :
    parseItem (dumpsItem x ++ rest) = some (x, rest) := by
  cases x with
  | jnull => rfl
  | jbool b => cases b <;> rfl
  | jstr s =>
      show parseItem (34 :: escapeStr s ++ [34] ++ rest) = some (.jstr s, rest)
      have hstr := parseStringBody_escape s rest hwf
      simp only [List.cons_append, List.append_assoc, List.singleton_append]
      simp [parseItem, hstr]
  | jint n =>
      show parseItem (dumpsInt n ++ rest) = some (.jint n, rest)
      have key := parseIntTok_dumpsInt n rest hrest
      by_cases hneg : n < 0
      · rw [dumpsInt, if_pos hneg] at key ⊢
        simp only [List.cons_append] at key ⊢
        simp [parseItem, key]
      · rw [dumpsInt, if_neg hneg] at key ⊢
        obtain ⟨d, ds, hds⟩ : ∃ d ds, natDigits n.toNat = d :: ds := by
          cases h : natDigits n.toNat with
          | nil => exact absurd h (natDigits_ne_nil _)
          | cons d ds => exact ⟨d, ds, rfl⟩
        have hd : 48 ≤ d ∧ d ≤ 57 :=
          natDigits_digits n.toNat d (by rw [hds]; exact List.mem_cons_self d ds)
        rw [hds] at key ⊢
        simp only [List.cons_append] at key ⊢
        rw [parseItem]
        rw [if_neg (by omega : ¬ d = 110), if_neg (by omega : ¬ d = 116),
          if_neg (by omega : ¬ d = 102), if_neg (by omega : ¬ d = 34),
          if_pos (Or.inr hd)]
        rw [key]
        rfl

theorem skipWs_cons_of_not_ws (c : Nat) (t : List Nat)
    (h : ¬(c = 32 ∨ c = 9 ∨ c = 10 ∨ c = 13)) : skipWs (c :: t) = c :: t := by
  rw [skipWs, if_neg h]

theorem skipWs_cons_space (t : List Nat) : skipWs (32 :: t) = skipWs t := rfl

/-- The first character of a dumped item is never whitespace and never a
closing bracket. -/
theorem dumpsItem_head (x : JItem) :
    ∃ c t, dumpsItem x = c :: t ∧
      ¬(c = 32 ∨ c = 9 ∨ c = 10 ∨ c = 13) ∧ c ≠ 93 := by
  cases x with
  | jnull => exact ⟨110, _, rfl, by decide, by decide⟩
  | jbool b =>
      cases b
      · exact ⟨102, _, rfl, by decide, by decide⟩
      · exact ⟨116, _, rfl, by decide, by decide⟩
  | jstr s => exact ⟨34, _, rfl, by decide, by decide⟩
  | jint n =>
      show ∃ c t, dumpsInt n = c :: t ∧ _
      by_cases hneg : n < 0
      · rw [dumpsInt, if_pos hneg]
        exact ⟨45, _, rfl, by decide, by decide⟩
      · rw [dumpsInt, if_neg hneg]
        obtain ⟨d, ds, hds⟩ : ∃ d ds, natDigits n.toNat = d :: ds := by
          cases h : natDigits n.toNat with
          | nil => exact absurd h (natDigits_ne_nil _)
          | cons d ds => exact ⟨d, ds, rfl⟩
        have hd : 48 ≤ d ∧ d ≤ 57 :=
          natDigits_digits n.toNat d (by rw [hds]; exact List.mem_cons_self d ds)
        exact ⟨d, ds, hds, by omega, by omega⟩

theorem skipWs_dumpsItem (x : JItem) (t : List Nat) :
    skipWs (dumpsItem x ++ t) = dumpsItem x ++ t := by
  obtain ⟨c, u, hcu, hws, _⟩ := dumpsItem_head x
  rw [hcu, List.cons_append]
  exact skipWs_cons_of_not_ws c _ hws

theorem sepDump_length (xs : List JItem) : xs.length ≤ (sepDump xs).length := by
  induction xs with
  | nil => simp [sepDump]
  | cons y ys ih =>
      simp only [sepDump, List.flatMap_cons, List.length_append,
        List.length_cons] at *
      omega

theorem parseElems_dump (xs : List JItem) :
    ∀ (x : JItem) (s rest : List Nat) (fuel : Nat), xs.length < fuel →
      wfItem x → (∀ y ∈ xs, wfItem y) →
      skipWs s = dumpsItem x ++ (sepDump xs ++ 93 :: rest) →
      parseElems fuel s = some (x :: xs, rest) := by
  induction xs with
  | nil =>
      intro x s rest fuel hf hwx _ hs
      rw [List.length_nil] at hf
      match fuel, hf with
      | f + 1, _ =>
          have hitem : parseItem (skipWs s) = some (x, 93 :: rest) := by
            rw [hs]
            show parseItem (dumpsItem x ++ ([] ++ 93 :: rest)) = _
            rw [List.nil_append]
            exact parseItem_dumpsItem x (93 :: rest) hwx
              (by show ¬(48 ≤ 93 ∧ 93 ≤ 57); omega)
          have hsk : skipWs (93 :: rest) = 93 :: rest :=
            skipWs_cons_of_not_ws 93 rest (by decide)
          simp only [parseElems, hitem, hsk]
  | cons y ys ih =>
      intro x s rest fuel hf hwx hwys hs
      rw [List.length_cons] at hf
      match fuel, hf with
      | f + 1, hf =>
          have hsep : sepDump (y :: ys) = 44 :: 32 :: (dumpsItem y ++ sepDump ys) := by
            simp [sepDump]
          rw [hsep] at hs
          have hitem : parseItem (skipWs s) =
              some (x, 44 :: 32 :: (dumpsItem y ++ sepDump ys) ++ 93 :: rest) := by
            rw [hs]
            exact parseItem_dumpsItem x _ hwx (by simp [headNotDigit])
          have hr3 : skipWs (32 :: (dumpsItem y ++ sepDump ys) ++ 93 :: rest) =
              dumpsItem y ++ (sepDump ys ++ 93 :: rest) := by
            simp only [List.cons_append, List.append_assoc]
            rw [skipWs_cons_space]
            exact skipWs_dumpsItem y _
          have hrec := ih y (32 :: (dumpsItem y ++ sepDump ys) ++ 93 :: rest) rest f
            (by omega)
            (hwys y (List.mem_cons_self y ys))
            (fun z hz => hwys z (List.mem_cons_of_mem y hz))
            hr3
          have hsk : skipWs (44 :: 32 :: (dumpsItem y ++ sepDump ys) ++ 93 :: rest) =
              44 :: (32 :: (dumpsItem y ++ sepDump ys) ++ 93 :: rest) := by
            simp only [List.cons_append]
            exact skipWs_cons_of_not_ws 44 _ (by decide)
          simp only [parseElems, hitem, hsk, hrec]
          rfl

theorem dumps_cons (x : JItem) (xs : List JItem) :
    dumps (x :: xs) = 91 :: (dumpsItem x ++ sepDump xs ++ [93]) := rfl

theorem jsonLoads_dumps (l : List JItem) (hwf : ∀ x ∈ l, wfItem x) :
    jsonLoads (dumps l) = some l := by
  cases l with
  | nil => rfl
  | cons x xs =>
      rw [dumps_cons]
      obtain ⟨c, t, hct, hws, h93⟩ := dumpsItem_head x
      have hA : dumpsItem x ++ sepDump xs ++ [93] =
          c :: (t ++ (sepDump xs ++ [93])) := by
        rw [hct]
        simp [List.append_assoc]
      have hskA : skipWs (dumpsItem x ++ sepDump xs ++ [93]) =
          dumpsItem x ++ sepDump xs ++ [93] := by
        rw [List.append_assoc]
        exact skipWs_dumpsItem x _
      have hfuel : xs.length < (c :: (t ++ (sepDump xs ++ [93]))).length + 1 := by
        have h1 := sepDump_length xs
        rw [← hA]
        simp only [List.length_append, List.length_cons]
        omega
      have helems := parseElems_dump xs x (c :: (t ++ (sepDump xs ++ [93]))) [] _
        hfuel (hwf x (List.mem_cons_self x xs))
        (fun z hz => hwf z (List.mem_cons_of_mem x hz))
        (by
          rw [skipWs_cons_of_not_ws c _ hws, ← List.cons_append, ← hct])
      have hsk91 : skipWs (91 :: (dumpsItem x ++ sepDump xs ++ [93])) =
          91 :: (dumpsItem x ++ sepDump xs ++ [93]) :=
        skipWs_cons_of_not_ws 91 _ (by decide)
      have h1 : jsonLoads (91 :: (dumpsItem x ++ sepDump xs ++ [93])) =
          jsonLoadsArr (skipWs (dumpsItem x ++ sepDump xs ++ [93])) := by
        rw [jsonLoads, hsk91]
        rfl
      rw [h1, hskA, hA]
      rw [jsonLoadsArr]
      rw [if_neg h93, helems]
      rfl

theorem hexDig_mod_lt (a : Nat) : hexDig (a % 16) < 128 := by
  unfold hexDig
  split <;> omega

theorem escChar_ascii (c : Nat) : ∀ b ∈ escChar c, b < 128 := by
  intro b hb
  rw [escChar] at hb
  split_ifs at hb with h34 h92 hpr h8 h9 h10 h12 h13 hbmp
  · simp only [List.mem_cons, List.not_mem_nil, or_false] at hb
    omega
  · simp only [List.mem_cons, List.not_mem_nil, or_false] at hb
    omega
  · simp only [List.mem_singleton] at hb
    omega
  · simp only [List.mem_cons, List.not_mem_nil, or_false] at hb
    omega
  · simp only [List.mem_cons, List.not_mem_nil, or_false] at hb
    omega
  · simp only [List.mem_cons, List.not_mem_nil, or_false] at hb
    omega
  · simp only [List.mem_cons, List.not_mem_nil, or_false] at hb
    omega
  · simp only [List.mem_cons, List.not_mem_nil, or_false] at hb
    omega
  · rcases List.mem_cons.mp hb with heq | hb2
    · omega
    rcases List.mem_cons.mp hb2 with heq | hb3
    · omega
    rw [hex4] at hb3
    rcases List.mem_cons.mp hb3 with heq | hb4
    · rw [heq]
      exact hexDig_mod_lt _
    rcases List.mem_cons.mp hb4 with heq | hb5
    · rw [heq]
      exact hexDig_mod_lt _
    rcases List.mem_cons.mp hb5 with heq | hb6
    · rw [heq]
      exact hexDig_mod_lt _
    rcases List.mem_cons.mp hb6 with heq | hb7
    · rw [heq]
      exact hexDig_mod_lt _
    · exact absurd hb7 (List.not_mem_nil b)
  · rcases List.mem_append.mp hb with hb1 | hb1
    · rcases List.mem_cons.mp hb1 with heq | hb2
      · omega
      rcases List.mem_cons.mp hb2 with heq | hb3
      · omega
      rw [hex4] at hb3
      rcases List.mem_cons.mp hb3 with heq | hb4
      · rw [heq]
        exact hexDig_mod_lt _
      rcases List.mem_cons.mp hb4 with heq | hb5
      · rw [heq]
        exact hexDig_mod_lt _
      rcases List.mem_cons.mp hb5 with heq | hb6
      · rw [heq]
        exact hexDig_mod_lt _
      rcases List.mem_cons.mp hb6 with heq | hb7
      · rw [heq]
        exact hexDig_mod_lt _
      · exact absurd hb7 (List.not_mem_nil b)
    · rcases List.mem_cons.mp hb1 with heq | hb2
      · omega
      rcases List.mem_cons.mp hb2 with heq | hb3
      · omega
      rw [hex4] at hb3
      rcases List.mem_cons.mp hb3 with heq | hb4
      · rw [heq]
        exact hexDig_mod_lt _
      rcases List.mem_cons.mp hb4 with heq | hb5
      · rw [heq]
        exact hexDig_mod_lt _
      rcases List.mem_cons.mp hb5 with heq | hb6
      · rw [heq]
        exact hexDig_mod_lt _
      rcases List.mem_cons.mp hb6 with heq | hb7
      · rw [heq]
        exact hexDig_mod_lt _
      · exact absurd hb7 (List.not_mem_nil b)

theorem escapeStr_ascii (s : List Nat) : ∀ b ∈ escapeStr s, b < 128 := by
  intro b hb
  rw [escapeStr] at hb
  obtain ⟨c, _, hc⟩ := List.mem_flatMap.mp hb
  exact escChar_ascii c b hc

theorem dumpsItem_ascii (x : JItem) : ∀ b ∈ dumpsItem x, b < 128 := by
  cases x with
  | jnull => decide
  | jbool b => cases b <;> decide
  | jint n =>
      intro b hb
      rw [show dumpsItem (.jint n) = dumpsInt n from rfl, dumpsInt] at hb
      split_ifs at hb
      · simp only [List.mem_cons] at hb
        rcases hb with rfl | hb
        · omega
        · have := natDigits_digits n.natAbs b hb
          omega
      · have := natDigits_digits n.toNat b hb
        omega
  | jstr s =>
      intro b hb
      rcases List.mem_cons.mp hb with rfl | hb1
      · omega
      rcases List.mem_append.mp hb1 with hb2 | hb2
      · exact escapeStr_ascii s b hb2
      · simp only [List.mem_singleton] at hb2
        omega

theorem dumps_ascii (l : List JItem) : ∀ b ∈ dumps l, b < 128 := by
  cases l with
  | nil => decide
  | cons x xs =>
      intro b hb
      rw [dumps_cons] at hb
      rcases List.mem_cons.mp hb with rfl | hb1
      · omega
      rcases List.mem_append.mp hb1 with hb2 | hb2
      · rcases List.mem_append.mp hb2 with hb3 | hb3
        · exact dumpsItem_ascii x b hb3
        · rw [sepDump] at hb3
          obtain ⟨y, _, hby⟩ := List.mem_flatMap.mp hb3
          rcases List.mem_cons.mp hby with rfl | hby2
          · omega
          rcases List.mem_cons.mp hby2 with rfl | hby3
          · omega
          · exact dumpsItem_ascii y b hby3
      · simp only [List.mem_singleton] at hb2
        omega

theorem dumps_length_pos (l : List JItem) : (dumps l).length ≠ 0 := by
  cases l <;> simp [dumps, dumps_cons]

/-- Helper: `get_msg(conn, 'str')` on a wire holding the length frame
and then a payload chunk of at most that many bytes returns the chunk. -/
theorem getMsgStr_two_chunks (n : Nat) (hn : n < 4294967296) (hn0 : n ≠ 0)
    (d : List Nat) (hdn : d.length ≤ n) (s : List Chunk) :
    getMsgStr (Chunk.bs (le32 n) :: Chunk.bs d :: s) = .ok (d, s) := by
  have hrecv : recv n (Chunk.bs d :: s) = .ok (d, s) := by
    rw [recv, if_neg hn0, if_pos hdn]
  have h : getMsgStr (Chunk.bs (le32 n) :: Chunk.bs d :: s) =
      (getMsgLen (Chunk.bs (le32 n) :: Chunk.bs d :: s)) >>=
        (fun p => (recv p.1 p.2) >>= fun q => Except.ok (q.1, q.2)) := rfl
  rw [h, getMsgLen_prefix n hn]
  show (recv n (Chunk.bs d :: s)) >>= (fun q => Except.ok (q.1, q.2)) =
    Except.ok (d, s)
  rw [hrecv]
  rfl

/-- Helper: `get_msg(conn, 'list')` on a wire holding the length frame
and the exact JSON text decodes to the parsed list. -/
theorem getMsgList_two_chunks (d : List Nat) (hn : d.length < 4294967296)
    (hn0 : d.length ≠ 0) (cps : List Nat) (l : List JItem) (s : List Chunk)
    (hdec : utf8Decode d = some cps) (hloads : jsonLoads cps = some l) :
    getMsgList (Chunk.bs (le32 d.length) :: Chunk.bs d :: s) = .ok (l, s) := by
  have hrecv : recv d.length (Chunk.bs d :: s) = .ok (d, s) := by
    rw [recv, if_neg hn0, if_pos (le_refl d.length)]
  have h : getMsgList (Chunk.bs (le32 d.length) :: Chunk.bs d :: s) =
      (getMsgLen (Chunk.bs (le32 d.length) :: Chunk.bs d :: s)) >>=
        (fun p => (recv p.1 p.2) >>= fun q =>
          (match utf8Decode q.1 with
           | none => Except.error RErr.unicodeError
           | some cps =>
             match jsonLoads cps with
             | none => Except.error RErr.jsonError
             | some item => Except.ok (item, q.2))) := rfl
  rw [h, getMsgLen_prefix d.length hn]
  show (recv d.length (Chunk.bs d :: s)) >>= (fun q =>
      (match utf8Decode q.1 with
       | none => Except.error RErr.unicodeError
       | some cps =>
         match jsonLoads cps with
         | none => Except.error RErr.jsonError
         | some item => Except.ok (item, q.2))) = Except.ok (l, s)
  rw [hrecv]
  show (match utf8Decode d with
       | none => Except.error RErr.unicodeError
       | some cps =>
         match jsonLoads cps with
         | none => Except.error RErr.jsonError
         | some item => Except.ok (item, s)) = Except.ok (l, s)
  rw [hdec]
  show (match jsonLoads cps with
       | none => Except.error RErr.jsonError
       | some item => Except.ok (item, s)) = Except.ok (l, s)
  rw [hloads]

/-- C1 as stated is false for non-ASCII strings: `send_msg` prefixes the
*character* count (`len` of the `str`) but sends the UTF-8 *bytes*.
For the one-character string `'é'` (code point 233) the prefix says one
byte while the payload is two; the decoder reads back a single byte
`0xC3` — not the original string (indeed not even valid UTF-8) — and
leaves a stray byte in the stream. -/
theorem codec_roundtrip_counterexample :
    sendMsgStr [233] = some [[1, 0, 0, 0], [195, 169]] ∧
    getMsgStr [Chunk.bs [1, 0, 0, 0], Chunk.bs [195, 169]] =
      Except.ok ([195], [Chunk.bs [169]]) :=
  ⟨rfl, rfl⟩

/-- C1 (amended): the round-trip holds for `UInt32` frames over the full
`uint32` range and for `JsonList` frames over JSON arrays of scalars
(with surrogate-free strings — `json.dumps` escapes to ASCII, so the
character-count prefix is correct there); for `Utf8String` frames it
holds exactly for ASCII strings, whose UTF-8 bytes coincide with their
code points (the decoder returns raw bytes).  Non-ASCII strings do not
round-trip (see the counterexample). -/
theorem codec_roundtrip :
    (∀ v : Nat, v < 4294967296 →
       ∃ w, sendMsgInt v = some w ∧ getMsgInt (wireOf w) = Except.ok (v, [])) ∧
    (∀ s : List Nat, (∀ c ∈ s, c < 128) → s.length < 4294967296 →
       ∃ w rest, sendMsgStr s = some w ∧
         getMsgStr (wireOf w) = Except.ok (s, rest)) ∧
    (∀ l : List JItem, (∀ x ∈ l, wfItem x) → (dumps l).length < 4294967296 →
       ∃ w rest, sendMsgList l = some w ∧
         getMsgList (wireOf w) = Except.ok (l, rest)) := by
  refine ⟨?_, ?_, ?_⟩
  · intro v hv
    refine ⟨[le32 v], ?_, ?_⟩
    · rw [sendMsgInt, if_pos hv]
    · exact getMsgLen_prefix v hv []
  · intro s hascii hlen
    have henc : utf8Encode s = s := utf8Encode_ascii s hascii
    by_cases hnil : s = []
    · subst hnil
      exact ⟨[le32 0, []], [Chunk.bs []], rfl, rfl⟩
    · have hlen0 : s.length ≠ 0 := fun h => hnil (List.length_eq_zero.mp h)
      refine ⟨[le32 s.length, s], [], ?_, ?_⟩
      · rw [sendMsgStr, if_pos hlen, henc]
      · exact getMsgStr_two_chunks s.length hlen hlen0 s (le_refl _) []
  · intro l hwf hlen
    have hascii := dumps_ascii l
    have henc : utf8Encode (dumps l) = dumps l := utf8Encode_ascii _ hascii
    have hdec : utf8Decode (dumps l) = some (dumps l) := utf8Decode_ascii _ hascii
    have hloads := jsonLoads_dumps l hwf
    refine ⟨[le32 (dumps l).length, dumps l], [], ?_, ?_⟩
    · rw [sendMsgList, if_pos hlen, henc]
    · exact getMsgList_two_chunks (dumps l) hlen (dumps_length_pos l)
        (dumps l) l [] hdec hloads

/-- Witness for C1 (amended): a concrete `uint32`, an ASCII string and a
JSON list (containing a non-ASCII string member, which `json.dumps`
escapes) all round-trip. -/
theorem codec_roundtrip_witness :
    (∃ w, sendMsgInt 7 = some w ∧ getMsgInt (wireOf w) = Except.ok (7, [])) ∧
    (∃ w rest, sendMsgStr [104, 105] = some w ∧
       getMsgStr (wireOf w) = Except.ok ([104, 105], rest)) ∧
    (∃ w rest, sendMsgList [JItem.jint 5, JItem.jstr [233]] = some w ∧
       getMsgList (wireOf w) =
         Except.ok ([JItem.jint 5, JItem.jstr [233]], rest)) :=
  ⟨codec_roundtrip.1 7 (by decide),
   codec_roundtrip.2.1 [104, 105] (by decide) (by decide),
   codec_roundtrip.2.2 [JItem.jint 5, JItem.jstr [233]] (by decide) (by decide)⟩

end DashDaq
